import Mathlib

/-!
Verification of the document-synchronization core of the blase language server.

The development shallowly embeds the Rust sources:
  - `src/util.rs`   : position codec (`offset`, `text_range`) and the change
    applier `apply_document_changes` with its lazily invalidated line index;
  - `src/db.rs`     : `BladeDocument` structural equality, the error-query
    diagnostics, and the memoized `parse_document` pipeline;
  - `src/lib.rs`    : the tree-walking diagnostic extractor;
  - `src/handler.rs`: the did-change notification handler;
  - `src/server.rs` : the position-encoding negotiation.

Document text is modelled as `List Char`; byte offsets are computed from the
UTF-8 size of each character, so all offset arithmetic is byte-exact.  The
`line-index` crate and the `crate::line_index` wrapper module are not part of
the provided sources; their operations are modelled from the specification
(sorted line-start byte offsets; wide-column to byte-column translation).
-/

namespace Blase

/-- Position encodings a client can negotiate (from the line-index crate). -/
inductive WideEncoding where
  | utf16
  | utf32
deriving DecidableEq, Repr

/-- `PositionEncoding` from the `crate::line_index` wrapper: UTF-8 columns are
byte columns, the wide encodings count UTF-16/UTF-32 code units. -/
inductive PositionEncoding where
  | utf8
  | wide (enc : WideEncoding)
deriving DecidableEq, Repr

/-- Line endings recorded in the wrapper `LineIndex` (unused by the codec). -/
inductive LineEndings where
  | unix
  | dos
deriving DecidableEq, Repr

/-- An LSP position: zero-based line and column in the negotiated encoding. -/
structure Position where
  line : Nat
  character : Nat
deriving DecidableEq, Repr

/-- An LSP range.  The source field named `end` is called `stop` here because
`end` is a Lean keyword. -/
structure LspRange where
  start : Position
  stop : Position
deriving DecidableEq, Repr

/-- One `TextDocumentContentChangeEvent`: `range = none` is a full-document
replacement, otherwise the given range is replaced by `text`. -/
structure ContentChange where
  range : Option LspRange
  text : List Char
deriving DecidableEq, Repr

/-- Total UTF-8 byte length of a character list. -/
def byteLen (t : List Char) : Nat := (t.map Char.utf8Size).sum

/-- Longest prefix of `t` whose characters fit entirely in the first `n`
bytes; on a character boundary this is exactly the Rust slice `&t[..n]`. -/
def takeBytes : Nat → List Char → List Char
  | _, [] => []
  | n, c :: cs => if c.utf8Size ≤ n then c :: takeBytes (n - c.utf8Size) cs else []

/-- Suffix of `t` after the first `n` bytes; on a character boundary this is
exactly the Rust slice `&t[n..]`. -/
def dropBytes : Nat → List Char → List Char
  | _, [] => []
  | n, c :: cs => if c.utf8Size ≤ n then dropBytes (n - c.utf8Size) cs else c :: cs

/-- `String::replace_range(a..b, new)`: splice `new` over the byte range. -/
def replace_range (t : List Char) (a b : Nat) (new : List Char) : List Char :=
  takeBytes a t ++ new ++ dropBytes b t

/-- Split a text into its lines at every newline byte.  A text with `n`
newline bytes yields `n + 1` lines, matching the line count of the line-index
crate (line start offsets are the positions just after each newline). -/
def splitLines : List Char → List (List Char)
  | [] => [[]]
  | c :: cs =>
    if c = '\n' then [] :: splitLines cs
    else
      match splitLines cs with
      | [] => [[c]]
      | l :: ls => (c :: l) :: ls

/-- Modelled from the spec: the line-index crate structure built over one
text snapshot — a sorted list of line-start byte offsets plus the per-line
wide-character information.  All of its queries are derived from the captured
source text. -/
structure RaLineIndex where
  src : List Char
deriving DecidableEq, Repr

/-- `LineIndex::new(&text)`. -/
def RaLineIndex.new (text : List Char) : RaLineIndex := ⟨text⟩

/-- Byte offset of the start of line `l` (sum of the byte lengths of the
previous lines, each followed by one newline byte). -/
def RaLineIndex.line_start (li : RaLineIndex) (l : Nat) : Nat :=
  (((splitLines li.src).take l).map (fun x => byteLen x + 1)).sum

/-- Characters of line `l`, or `[]` when the line is out of range (matching
the crate, whose per-line wide-character table simply has no entry then). -/
def RaLineIndex.line_chars (li : RaLineIndex) (l : Nat) : List Char :=
  ((splitLines li.src)[l]?).getD []

/-- Byte length of the range assigned to line `l`: the content bytes plus
the trailing newline byte when the line has one (every line except the
last), matching the crate, whose line range ends just after the newline. -/
def RaLineIndex.line_len (li : RaLineIndex) (l : Nat) : Nat :=
  byteLen (li.line_chars l) + (if l + 1 = (splitLines li.src).length then 0 else 1)

/-- `LineIndex::line`: the byte range of line `l` (start offset and length,
including the trailing newline when present), or `none` when `l` is out of
range. -/
def RaLineIndex.line (li : RaLineIndex) (l : Nat) : Option (Nat × Nat) :=
  match (splitLines li.src)[l]? with
  | some _ => some (li.line_start l, li.line_len l)
  | none => none

/-- Modelled from the spec: number of code units a character occupies in a
wide encoding (two UTF-16 units exactly for the four-byte characters). -/
def wide_len (enc : WideEncoding) (c : Char) : Nat :=
  match enc with
  | .utf32 => 1
  | .utf16 => if c.utf8Size = 4 then 2 else 1

/-- Modelled from the spec: `LineIndex::to_utf8` — translate a wide column
into a byte column by walking the line, adding the byte/code-unit difference
of every wide character lying wholly before the column, and stopping at the
first wide character at or after it. -/
def to_utf8 (enc : WideEncoding) : List Char → Nat → Nat → Nat
  | [], _, col => col
  | c :: cs, s, col =>
    if 1 < c.utf8Size then
      if s < col then to_utf8 enc cs (s + c.utf8Size) (col + c.utf8Size - wide_len enc c)
      else col
    else to_utf8 enc cs (s + c.utf8Size) col

/-- The `crate::line_index::LineIndex` wrapper from the source: the crate
index together with line-ending and encoding information. -/
structure LineIndex where
  index : RaLineIndex
  endings : LineEndings
  encoding : PositionEncoding
deriving DecidableEq, Repr

/-- Embeds `offset` from src/util.rs: convert an LSP position to a byte
offset.  Wide columns are first translated to byte columns; the line lookup
fails (`none`, the `anyhow` error in the source) when the line is out of
range; the column is clamped to the line length. -/
def offset (li : LineIndex) (position : Position) : Option Nat :=
  let line_col : Nat × Nat :=
    match li.encoding with
    | PositionEncoding.utf8 => (position.line, position.character)
    | PositionEncoding.wide enc =>
      (position.line, to_utf8 enc (li.index.line_chars position.line) 0 position.character)
  match li.index.line line_col.1 with
  | none => none
  | some line_range => some (line_range.1 + min line_col.2 line_range.2)

/-- Embeds `text_range` from src/util.rs: convert both endpoints and fail
when the end offset is smaller than the start offset. -/
def text_range (li : LineIndex) (range : LspRange) : Option (Nat × Nat) :=
  match offset li range.start, offset li range.stop with
  | some s, some e => if e < s then none else some (s, e)
  | _, _ => none

/-- `rposition(|change| change.range.is_none())`: index of the last
full-document replacement in the batch, if any. -/
def rposition : List ContentChange → Option Nat
  | [] => none
  | c :: cs =>
    match rposition cs with
    | some i => some (i + 1)
    | none => if c.range.isNone then some 0 else none

/-- Loop state of `apply_document_changes`: the current text, the cached
line index, and the `index_valid` watermark (lowest line still valid). -/
structure ApplyState where
  text : List Char
  index : RaLineIndex
  valid : Nat
deriving DecidableEq, Repr

/-- One iteration of the change loop in src/util.rs: rebuild the cached line
index when the watermark is at or below the end line of the change, lower
the watermark to the start line of the change, then splice if the range
converts. -/
def applyStep (encoding : PositionEncoding) (s : ApplyState) (change : ContentChange) :
    ApplyState :=
  match change.range with
  | none => s
  | some range =>
    let index := if s.valid ≤ range.stop.line then RaLineIndex.new s.text else s.index
    let valid := range.start.line
    match text_range { index := index, endings := .unix, encoding := encoding } range with
    | some br => { text := replace_range s.text br.1 br.2 change.text, index := index, valid := valid }
    | none => { text := s.text, index := index, valid := valid }

/-- Embeds `apply_document_changes` from src/util.rs: start from the last
full replacement if any, return immediately when no ranged changes remain,
otherwise fold the remaining changes in order starting from a fresh line
index and an all-lines-valid watermark (`!0u32`). -/
def apply_document_changes (encoding : PositionEncoding) (file_contents : List Char)
    (content_changes : List ContentChange) : List Char :=
  let start : List Char × List ContentChange :=
    match rposition content_changes with
    | some idx =>
      (((content_changes[idx]?).map ContentChange.text).getD [],
        content_changes.drop (idx + 1))
    | none => (file_contents, content_changes)
  if start.2.isEmpty then start.1
  else
    (List.foldl (applyStep encoding)
      { text := start.1, index := RaLineIndex.new start.1, valid := 2 ^ 32 - 1 }
      start.2).text

lemma line_eq_none_iff (li : RaLineIndex) (l : Nat) :
    li.line l = none ↔ (splitLines li.src).length ≤ l := by
  cases h : (splitLines li.src)[l]? with
  | none =>
    simp only [RaLineIndex.line, h]
    constructor
    · intro _
      by_contra hn
      push_neg at hn
      rw [List.getElem?_eq_getElem hn] at h
      cases h
    · intro _; trivial
  | some lc =>
    simp only [RaLineIndex.line, h]
    constructor
    · intro hc; cases hc
    · intro hle
      rw [List.getElem?_eq_none hle] at h
      cases h

lemma offset_eq_none_iff (li : LineIndex) (p : Position) :
    offset li p = none ↔ li.index.line p.line = none := by
  cases henc : li.encoding <;>
    cases h : li.index.line p.line <;>
      simp [offset, henc, h]

lemma wide_len_le (enc : WideEncoding) (c : Char) : wide_len enc c ≤ c.utf8Size := by
  have hpos : 0 < c.utf8Size := Char.utf8Size_pos c
  cases enc with
  | utf32 => simpa [wide_len] using hpos
  | utf16 =>
    simp only [wide_len]
    split <;> omega

lemma to_utf8_ge (enc : WideEncoding) :
    ∀ (cs : List Char) (s col : Nat), col ≤ to_utf8 enc cs s col := by
  intro cs
  induction cs with
  | nil => intro s col; simp [to_utf8]
  | cons c cs ih =>
    intro s col
    simp only [to_utf8]
    split
    · split
      · refine le_trans ?_ (ih (s + c.utf8Size) (col + c.utf8Size - wide_len enc c))
        have := wide_len_le enc c
        omega
      · exact Nat.le_refl col
    · exact ih (s + c.utf8Size) col

/-- C5: `offset` fails exactly when the line of the position is out of range
of the line index, and when the line is in range but the requested column
exceeds the byte length assigned to the line (which, as in the source code
that `col.min(line_range.len())` clamps against, includes the trailing
newline byte when the line has one), the byte offset is clamped to that byte
length (the conversion is total, so it never panics). -/
theorem offset_invalid_iff_and_clamp (li : LineIndex) (position : Position) :
    (offset li position = none ↔ (splitLines li.index.src).length ≤ position.line) ∧
    (position.line < (splitLines li.index.src).length →
      li.index.line_len position.line < position.character →
      offset li position =
        some (li.index.line_start position.line + li.index.line_len position.line)) := by
  constructor
  · rw [offset_eq_none_iff]
    exact line_eq_none_iff li.index position.line
  · intro h1 h2
    have hsome : (splitLines li.index.src)[position.line]? =
        some ((splitLines li.index.src)[position.line]) :=
      List.getElem?_eq_getElem h1
    have hline : li.index.line position.line =
        some (li.index.line_start position.line, li.index.line_len position.line) := by
      simp [RaLineIndex.line, hsome]
    cases henc : li.encoding with
    | utf8 =>
      simp only [offset, henc, hline]
      rw [Nat.min_eq_right (Nat.le_of_lt h2)]
    | wide enc =>
      simp only [offset, henc, hline]
      have hge : position.character ≤
          to_utf8 enc (li.index.line_chars position.line) 0 position.character :=
        to_utf8_ge enc _ 0 position.character
      rw [Nat.min_eq_right (Nat.le_of_lt (Nat.lt_of_lt_of_le h2 hge))]

/-- Witness for C5: on the text "abc" with UTF-8 columns, position (0, 5)
is clamped to byte offset 3. -/
theorem offset_invalid_iff_and_clamp_witness :
    offset { index := RaLineIndex.new ['a', 'b', 'c'], endings := .unix, encoding := .utf8 }
        { line := 0, character := 5 } =
      some (RaLineIndex.line_start (RaLineIndex.new ['a', 'b', 'c']) 0 +
        RaLineIndex.line_len (RaLineIndex.new ['a', 'b', 'c']) 0) :=
  (offset_invalid_iff_and_clamp
    { index := RaLineIndex.new ['a', 'b', 'c'], endings := .unix, encoding := .utf8 }
    { line := 0, character := 5 }).2 (by decide) (by decide)

/-- C1: each remaining ranged change is folded in the order given; the step
rebuilds the cached line index over the current text exactly when the
watermark is at or below the end line of the change, and then sets the
watermark to the start line of the change; the fold starts with the watermark
at the
maximum value (`!0u32`). -/
theorem apply_changes_watermark :
    (∀ (encoding : PositionEncoding) (s : ApplyState) (c : ContentChange) (r : LspRange),
      c.range = some r →
        (applyStep encoding s c).index =
          (if s.valid ≤ r.stop.line then RaLineIndex.new s.text else s.index) ∧
        (applyStep encoding s c).valid = r.start.line) ∧
    (∀ (encoding : PositionEncoding) (t : List Char) (cs : List ContentChange),
      rposition cs = none → cs ≠ [] →
        apply_document_changes encoding t cs =
          (List.foldl (applyStep encoding)
            { text := t, index := RaLineIndex.new t, valid := 2 ^ 32 - 1 } cs).text) := by
  constructor
  · intro encoding s c r hr
    simp only [applyStep, hr]
    cases htr : text_range
        { index := if s.valid ≤ r.stop.line then RaLineIndex.new s.text else s.index,
          endings := .unix, encoding := encoding } r <;>
      simp [htr]
  · intro encoding t cs h hne
    cases cs with
    | nil => exact absurd rfl hne
    | cons a as => simp [apply_document_changes, h]

/-- Witness for C1 at a concrete state and ranged change. -/
theorem apply_changes_watermark_witness :
    ((applyStep .utf8 { text := ['a'], index := RaLineIndex.new ['a'], valid := 2 ^ 32 - 1 }
        { range := some { start := ⟨0, 0⟩, stop := ⟨0, 1⟩ }, text := ['b'] }).index =
      (if (2 ^ 32 - 1 : Nat) ≤ (1 : Nat) then RaLineIndex.new ['a']
       else RaLineIndex.new ['a']) ∧
      (applyStep .utf8 { text := ['a'], index := RaLineIndex.new ['a'], valid := 2 ^ 32 - 1 }
        { range := some { start := ⟨0, 0⟩, stop := ⟨0, 1⟩ }, text := ['b'] }).valid = 0) ∧
    apply_document_changes .utf8 ['a']
        [{ range := some { start := ⟨0, 0⟩, stop := ⟨0, 1⟩ }, text := ['b'] }] =
      (List.foldl (applyStep .utf8)
        { text := ['a'], index := RaLineIndex.new ['a'], valid := 2 ^ 32 - 1 }
        [{ range := some { start := ⟨0, 0⟩, stop := ⟨0, 1⟩ }, text := ['b'] }]).text :=
  ⟨apply_changes_watermark.1 .utf8
      { text := ['a'], index := RaLineIndex.new ['a'], valid := 2 ^ 32 - 1 }
      { range := some { start := ⟨0, 0⟩, stop := ⟨0, 1⟩ }, text := ['b'] }
      { start := ⟨0, 0⟩, stop := ⟨0, 1⟩ } rfl,
    apply_changes_watermark.2 .utf8 ['a']
      [{ range := some { start := ⟨0, 0⟩, stop := ⟨0, 1⟩ }, text := ['b'] }] rfl (by simp)⟩

lemma rposition_some (cs : List ContentChange) (i : Nat) (h : rposition cs = some i) :
    ∃ c, cs[i]? = some c ∧ c.range = none ∧ rposition (cs.drop (i + 1)) = none := by
  induction cs generalizing i with
  | nil => simp [rposition] at h
  | cons a as ih =>
    rw [rposition] at h
    cases hrec : rposition as with
    | some j =>
      rw [hrec] at h
      have hij : i = j + 1 := by
        injection h with h; omega
      subst hij
      obtain ⟨c, hc1, hc2, hc3⟩ := ih j hrec
      exact ⟨c, by simpa using hc1, hc2, by simpa using hc3⟩
    | none =>
      rw [hrec] at h
      by_cases ha : a.range.isNone
      · rw [if_pos ha] at h
        have hi : i = 0 := by injection h with h; omega
        subst hi
        refine ⟨a, by simp, ?_, by simpa using hrec⟩
        cases har : a.range
        · rfl
        · rw [har] at ha; cases ha
      · rw [if_neg ha] at h
        cases h

/-- C2: a batch containing a full-document replacement is applied by
discarding everything up to and including the last such event and applying
only the suffix to its payload; a singleton full replacement yields its
payload, and the empty batch yields the original text. -/
theorem apply_changes_full_replace :
    (∀ (encoding : PositionEncoding) (t : List Char) (cs : List ContentChange) (i : Nat),
      rposition cs = some i →
        ∃ c, cs[i]? = some c ∧ c.range = none ∧
          apply_document_changes encoding t cs =
            apply_document_changes encoding c.text (cs.drop (i + 1))) ∧
    (∀ (encoding : PositionEncoding) (t s : List Char),
      apply_document_changes encoding t [{ range := none, text := s }] = s) ∧
    (∀ (encoding : PositionEncoding) (t : List Char),
      apply_document_changes encoding t [] = t) := by
  refine ⟨?_, ?_, ?_⟩
  · intro encoding t cs i h
    obtain ⟨c, hc, hcr, hdrop⟩ := rposition_some cs i h
    refine ⟨c, hc, hcr, ?_⟩
    simp [apply_document_changes, h, hc, hdrop]
  · intro encoding t s
    rfl
  · intro encoding t
    rfl

/-- Witness for C2: the last (only) full replacement of a singleton batch is
selected and nothing precedes it. -/
theorem apply_changes_full_replace_witness :
    ∃ c, ([({ range := none, text := ['s'] } : ContentChange)])[0]? = some c ∧
      c.range = none ∧
      apply_document_changes .utf8 ['t'] [({ range := none, text := ['s'] } : ContentChange)] =
        apply_document_changes .utf8 c.text
          (([({ range := none, text := ['s'] } : ContentChange)]).drop 1) :=
  apply_changes_full_replace.1 .utf8 ['t']
    [({ range := none, text := ['s'] } : ContentChange)] 0 rfl

/-- C6: when the range of one change fails to convert (for instance an
out-of-range line, or an end offset smaller than the start offset, which
`text_range` rejects), that change is dropped — the state keeps its text and
only the cached index and watermark advance — and the fold continues with the
remaining changes; `text_range` fails whenever the end offset is smaller than
the start offset. -/
theorem apply_changes_skip_failed :
    (∀ (encoding : PositionEncoding) (s : ApplyState) (c : ContentChange) (r : LspRange)
        (rest : List ContentChange),
      c.range = some r →
      text_range
          { index := if s.valid ≤ r.stop.line then RaLineIndex.new s.text else s.index,
            endings := .unix, encoding := encoding } r = none →
        List.foldl (applyStep encoding) s (c :: rest) =
          List.foldl (applyStep encoding)
            { text := s.text,
              index := if s.valid ≤ r.stop.line then RaLineIndex.new s.text else s.index,
              valid := r.start.line } rest) ∧
    (∀ (li : LineIndex) (r : LspRange) (a b : Nat),
      offset li r.start = some a → offset li r.stop = some b → b < a →
        text_range li r = none) := by
  constructor
  · intro encoding s c r rest hr htr
    rw [List.foldl_cons]
    congr 1
    simp [applyStep, hr, htr]
  · intro li r a b ha hb hba
    simp [text_range, ha, hb, hba]

/-- Witness for C6: an out-of-range change is skipped but the batch
continues, and a reversed range (end before start) fails to convert. -/
theorem apply_changes_skip_failed_witness :
    (List.foldl (applyStep .utf8)
        { text := ['a'], index := RaLineIndex.new ['a'], valid := 2 ^ 32 - 1 }
        [{ range := some { start := ⟨5, 0⟩, stop := ⟨5, 0⟩ }, text := ['b'] }] =
      List.foldl (applyStep .utf8)
        { text := ['a'],
          index := if (2 ^ 32 - 1 : Nat) ≤ (5 : Nat) then RaLineIndex.new ['a']
                   else RaLineIndex.new ['a'],
          valid := 5 } []) ∧
    text_range { index := RaLineIndex.new ['a', 'b', 'c'], endings := .unix, encoding := .utf8 }
        { start := ⟨0, 5⟩, stop := ⟨0, 1⟩ } = none :=
  ⟨apply_changes_skip_failed.1 .utf8
      { text := ['a'], index := RaLineIndex.new ['a'], valid := 2 ^ 32 - 1 }
      { range := some { start := ⟨5, 0⟩, stop := ⟨5, 0⟩ }, text := ['b'] }
      { start := ⟨5, 0⟩, stop := ⟨5, 0⟩ } [] rfl (by decide),
    apply_changes_skip_failed.2
      { index := RaLineIndex.new ['a', 'b', 'c'], endings := .unix, encoding := .utf8 }
      { start := ⟨0, 5⟩, stop := ⟨0, 1⟩ } 3 1 (by decide) (by decide) (by decide)⟩

/-- A tree-sitter syntax node: kind string, error and missing markers, start
and end points (row, byte column), byte range, and children in order.  The
parser engine producing these trees is an opaque capability; only the tree
shape is needed by the embedded code. -/
inductive TsNode where
  | node (kind : String) (is_error : Bool) (is_missing : Bool)
      (start_row : Nat) (start_col : Nat) (stop_row : Nat) (stop_col : Nat)
      (start_byte : Nat) (stop_byte : Nat) (children : List TsNode)

def TsNode.kind : TsNode → String
  | .node k _ _ _ _ _ _ _ _ _ => k

def TsNode.is_error : TsNode → Bool
  | .node _ e _ _ _ _ _ _ _ _ => e

def TsNode.is_missing : TsNode → Bool
  | .node _ _ m _ _ _ _ _ _ _ => m

def TsNode.start_row : TsNode → Nat
  | .node _ _ _ r _ _ _ _ _ _ => r

def TsNode.start_col : TsNode → Nat
  | .node _ _ _ _ c _ _ _ _ _ => c

def TsNode.stop_row : TsNode → Nat
  | .node _ _ _ _ _ r _ _ _ _ => r

def TsNode.stop_col : TsNode → Nat
  | .node _ _ _ _ _ _ c _ _ _ => c

def TsNode.start_byte : TsNode → Nat
  | .node _ _ _ _ _ _ _ b _ _ => b

def TsNode.stop_byte : TsNode → Nat
  | .node _ _ _ _ _ _ _ _ b _ => b

def TsNode.children : TsNode → List TsNode
  | .node _ _ _ _ _ _ _ _ _ cs => cs

mutual

/-- `Node::to_sexp`: the node-kind/shape signature of a tree.  It prints only
kinds and nesting; positions and byte ranges do not appear. -/
def TsNode.to_sexp : TsNode → String
  | .node kind _ _ _ _ _ _ _ _ children => "(" ++ kind ++ to_sexp_list children ++ ")"

def to_sexp_list : List TsNode → String
  | [] => ""
  | c :: cs => " " ++ TsNode.to_sexp c ++ to_sexp_list cs

end

/-- `BladeDocument` from src/db.rs: a parsed document wrapping its tree. -/
structure BladeDocument where
  tree : TsNode

/-- The `PartialEq` impl for `BladeDocument` from src/db.rs: equality of the
s-expression signatures of the root nodes. -/
def BladeDocument.eq (a b : BladeDocument) : Bool :=
  a.tree.to_sexp == b.tree.to_sexp

/-- C4: `BladeDocument` equality is exactly equality of the
tree shape signatures — in particular any two inputs whose parses have the same
signature give equal parsed documents, regardless of the input text or of
the recorded positions in the trees. -/
theorem blade_document_structural_eq :
    (∀ a b : BladeDocument, BladeDocument.eq a b = true ↔ a.tree.to_sexp = b.tree.to_sexp) ∧
    (∀ (parse : List Char → TsNode) (x y : List Char),
      (parse x).to_sexp = (parse y).to_sexp →
        BladeDocument.eq ⟨parse x⟩ ⟨parse y⟩ = true) := by
  constructor
  · intro a b
    simp [BladeDocument.eq]
  · intro parse x y h
    simp [BladeDocument.eq, h]

/-- Witness for C4: a parser whose tree records the byte length of the text still
produces equal documents for the texts "a" and " a" (their trees differ in
the recorded byte range but share the shape signature "(document)"). -/
theorem blade_document_structural_eq_witness :
    BladeDocument.eq
      ⟨(fun t => TsNode.node "document" false false 0 0 0 0 0 (byteLen t) []) ['a']⟩
      ⟨(fun t => TsNode.node "document" false false 0 0 0 0 0 (byteLen t) []) [' ', 'a']⟩ =
      true :=
  blade_document_structural_eq.2
    (fun t => TsNode.node "document" false false 0 0 0 0 0 (byteLen t) [])
    ['a'] [' ', 'a'] rfl

mutual

/-- Size measure for the stack-based tree walk. -/
def node_size : TsNode → Nat
  | .node _ _ _ _ _ _ _ _ _ children => 1 + list_size children

def list_size : List TsNode → Nat
  | [] => 0
  | c :: cs => node_size c + list_size cs

end

lemma node_size_eq (n : TsNode) : node_size n = 1 + list_size n.children := by
  cases n; rfl

lemma list_size_append (l1 l2 : List TsNode) :
    list_size (l1 ++ l2) = list_size l1 + list_size l2 := by
  induction l1 with
  | nil => simp [list_size]
  | cons c cs ih => simp [list_size, ih]; omega

/-- An LSP diagnostic as produced by the embedded extractors: a range of
(row, column) points, a numeric severity (1 = Error), an optional source tag,
and a message. -/
structure Diagnostic where
  range_start : Nat × Nat
  range_stop : Nat × Nat
  severity : Option Nat
  source : Option String
  message : String
deriving DecidableEq, Repr

/-- `node.utf8_text(source)`: the byte slice of the node, as characters. -/
def utf8_text (source : List Char) (a b : Nat) : List Char :=
  takeBytes (b - a) (dropBytes a source)

/-- Embeds `get_error_message` from src/lib.rs: "Syntax error" for an ERROR
node, and for a childless node whose short non-empty text is available, the
more specific "Unexpected token" message. -/
def get_error_message (n : TsNode) (source_code : List Char) : String :=
  let message :=
    if n.kind = "ERROR" then "Syntax error"
    else "Unexpected syntax: " ++ n.kind
  if n.children.length = 0 then
    let node_text := utf8_text source_code n.start_byte n.stop_byte
    if node_text.length ≠ 0 ∧ byteLen node_text < 50 then
      "Unexpected token: \x27" ++ String.mk node_text ++ "\x27"
    else message
  else message

/-- The diagnostic built by `diagnose_syntax` in src/lib.rs for one error or
missing node: raw tree-sitter points as the range, Error severity, the
"tree-sitter" source tag, and the per-node message. -/
def diag_for (n : TsNode) (source_code : List Char) : Diagnostic :=
  { range_start := (n.start_row, n.start_col),
    range_stop := (n.stop_row, n.stop_col),
    severity := some 1,
    source := some "tree-sitter",
    message := if n.is_missing then "Missing " ++ n.kind else get_error_message n source_code }

/-- The depth-first stack loop of `diagnose_syntax` in src/lib.rs: pop a
node, emit a diagnostic if it is an error or missing node, then push its
children so the first child is processed next. -/
def walk (source_code : List Char) : List TsNode → List Diagnostic
  | [] => []
  | n :: rest =>
    (if n.is_error || n.is_missing then [diag_for n source_code] else []) ++
      walk source_code (n.children ++ rest)
termination_by stack => list_size stack
decreasing_by
  simp only [list_size, list_size_append, node_size_eq]
  omega

/-- Embeds `diagnose_syntax` from src/lib.rs. -/
def diagnose_errors (tree : TsNode) (source_code : List Char) : List Diagnostic :=
  walk source_code [tree]

mutual

/-- Specification-side collector: all error or missing nodes in preorder. -/
def error_nodes : TsNode → List TsNode
  | n@(.node _ _ _ _ _ _ _ _ _ children) =>
    (if n.is_error || n.is_missing then [n] else []) ++ error_nodes_list children

def error_nodes_list : List TsNode → List TsNode
  | [] => []
  | c :: cs => error_nodes c ++ error_nodes_list cs

end

lemma error_nodes_eq (n : TsNode) :
    error_nodes n =
      (if n.is_error || n.is_missing then [n] else []) ++ error_nodes_list n.children := by
  cases n; rfl

lemma error_nodes_list_append (l1 l2 : List TsNode) :
    error_nodes_list (l1 ++ l2) = error_nodes_list l1 ++ error_nodes_list l2 := by
  induction l1 with
  | nil => simp [error_nodes_list]
  | cons c cs ih => simp [error_nodes_list, ih]

lemma walk_eq_error_nodes_aux (source_code : List Char) :
    ∀ (k : Nat) (l : List TsNode), list_size l ≤ k →
      walk source_code l = (error_nodes_list l).map (fun n => diag_for n source_code) := by
  intro k
  induction k with
  | zero =>
    intro l h
    cases l with
    | nil => simp [walk, error_nodes_list]
    | cons n rest =>
      exfalso
      have h1 := node_size_eq n
      simp only [list_size] at h
      omega
  | succ k ih =>
    intro l h
    cases l with
    | nil => simp [walk, error_nodes_list]
    | cons n rest =>
      rw [walk]
      have h1 := node_size_eq n
      have hsz : list_size (n.children ++ rest) ≤ k := by
        rw [list_size_append]
        simp only [list_size] at h
        omega
      rw [ih (n.children ++ rest) hsz]
      rw [error_nodes_list, error_nodes_eq, error_nodes_list_append]
      by_cases hf : (n.is_error || n.is_missing) = true <;>
        simp [hf]

/-- Counterexample for C7: a childless ERROR node whose short source text is
available is reported with an "Unexpected token" message naming the token,
not with the
fixed "Syntax error" message the claim states. -/
theorem diagnose_errors_counterexample :
    (diagnose_errors (TsNode.node "ERROR" true false 0 0 0 1 0 1 []) ['x']).map
        Diagnostic.message = ["Unexpected token: \x27x\x27"] ∧
      ("Unexpected token: \x27x\x27" : String) ≠ "Syntax error" := by
  constructor
  · rw [diagnose_errors,
      walk_eq_error_nodes_aux ['x'] (list_size [TsNode.node "ERROR" true false 0 0 0 1 0 1 []])
        [TsNode.node "ERROR" true false 0 0 0 1 0 1 []] (Nat.le_refl _)]
    rfl
  · decide

/-- C7 (amended): the extractor emits exactly one diagnostic per error or
missing node, in preorder: severity Error, source "tree-sitter", the range
taken verbatim from the parser-reported (row, byte-column) points of the node
without conversion into the negotiated encoding, and the message "Missing
<kind>" for missing nodes, "Syntax error" for error nodes with children or
unavailable/long text, and an "Unexpected token" message quoting the text
for childless error
nodes with short non-empty text. -/
theorem diagnose_errors_amended (tree : TsNode) (source_code : List Char) :
    diagnose_errors tree source_code =
      (error_nodes tree).map (fun n => diag_for n source_code) := by
  have h := walk_eq_error_nodes_aux source_code (list_size [tree]) [tree] (Nat.le_refl _)
  rw [diagnose_errors, h]
  simp [error_nodes_list]

mutual

/-- Nodes captured by the `(ERROR) @error` query of src/db.rs and
src/handler.rs: every ERROR node of the tree, in preorder. -/
def query_error_nodes : TsNode → List TsNode
  | n@(.node _ _ _ _ _ _ _ _ _ children) =>
    (if n.is_error then [n] else []) ++ query_error_nodes_list children

def query_error_nodes_list : List TsNode → List TsNode
  | [] => []
  | c :: cs => query_error_nodes c ++ query_error_nodes_list cs

end

/-- Embeds `BladeDocument::syntax_errors` from src/db.rs (the same function
appears in src/handler.rs): build the `(ERROR) @error` query — whose
construction by the parser engine may fail, modelled by the `Except`
argument — and either emit one "Syntax error!" diagnostic per captured node,
or log the failure and return no diagnostics.  The second component is the
list of messages reported to the tracing collaborator. -/
def query_errors (doc : BladeDocument) (_contents : List Char)
    (query_new : Except String Unit) : List Diagnostic × List String :=
  match query_new with
  | .ok _ =>
    ((query_error_nodes doc.tree).map (fun n =>
      { range_start := (n.start_row, n.start_col),
        range_stop := (n.stop_row, n.stop_col),
        severity := some 1,
        source := none,
        message := "Syntax error!" }), [])
  | .error e => ([], ["Error querying for syntax errors: " ++ e])

/-- C9: when constructing the error-node query fails, the extractor returns
exactly zero diagnostics and only hands the failure to the observability
collaborator; the error is never propagated. -/
theorem query_errors_on_failure (doc : BladeDocument) (contents : List Char) (e : String) :
    query_errors doc contents (Except.error e) =
      ([], ["Error querying for syntax errors: " ++ e]) := rfl

/-- Association-list lookup keyed by strings (models the `DashMap`). -/
def alist_get {α : Type} : List (String × α) → String → Option α
  | [], _ => none
  | (k, v) :: rest, key => if k = key then some v else alist_get rest key

/-- Association-list insert-or-replace keyed by strings. -/
def alist_put {α : Type} : List (String × α) → String → α → List (String × α)
  | [], key, v => [(key, v)]
  | (k, w) :: rest, key, v =>
    if k = key then (k, v) :: rest else (k, w) :: alist_put rest key v

lemma alist_get_put {α : Type} (l : List (String × α)) (k : String) (v : α) :
    alist_get (alist_put l k v) k = some v := by
  induction l with
  | nil => simp [alist_put, alist_get]
  | cons p rest ih =>
    obtain ⟨k0, w⟩ := p
    by_cases hk : k0 = k <;> simp [alist_put, alist_get, hk, ih]

lemma alist_put_self {α : Type} (l : List (String × α)) (k : String) (v : α)
    (h : alist_get l k = some v) : alist_put l k v = l := by
  induction l with
  | nil => simp [alist_get] at h
  | cons p rest ih =>
    obtain ⟨k0, w⟩ := p
    by_cases hk : k0 = k
    · rw [alist_get, if_pos hk] at h
      injection h with h
      simp [alist_put, hk, h]
    · rw [alist_get, if_neg hk] at h
      simp [alist_put, hk, ih h]

/-- The analysis database: per-identity text input cells (the `Files` map of
src/db.rs), and — modelled from the spec, since the salsa memoization engine
is an external dependency — the memo table of the tracked `parse_document`
function (last input text and cached document per identity) together with a
counter of parser invocations. -/
structure AnalysisDb where
  files : List (String × List Char)
  memo : List (String × (List Char × BladeDocument))
  parse_count : Nat

/-- Embeds `Files::set_source_file` / `RootDatabase::set_source_file` from
src/db.rs: insert or overwrite the text input cell for the identity. -/
def set_source_file (db : AnalysisDb) (url : String) (contents : List Char) : AnalysisDb :=
  { db with files := alist_put db.files url contents }

/-- Modelled from the spec: the salsa-tracked `parse_document` of src/db.rs.
The memoized value is returned without invoking the parsing capability when
the input text of the identity is byte-equal to the text the value was computed
from; otherwise the parser runs, the memo is updated and the invocation
counter is bumped.  Returns `none` (the source panics) when the identity has
no input cell. -/
def parse_document (parse_fn : List Char → TsNode) (db : AnalysisDb) (url : String) :
    Option (BladeDocument × AnalysisDb) :=
  match alist_get db.files url with
  | none => none
  | some contents =>
    match alist_get db.memo url with
    | some (inp, doc) =>
      if inp = contents then some (doc, db)
      else
        some (⟨parse_fn contents⟩,
          { db with memo := alist_put db.memo url (contents, ⟨parse_fn contents⟩),
                    parse_count := db.parse_count + 1 })
    | none =>
      some (⟨parse_fn contents⟩,
        { db with memo := alist_put db.memo url (contents, ⟨parse_fn contents⟩),
                  parse_count := db.parse_count + 1 })

/-- C3: once a text has been set and parsed, setting the byte-equal text
again is a no-op on the database, and the subsequent parse returns the
cached document with the database — in particular the parser-invocation
counter — unchanged: the parsing capability is not invoked a second time. -/
theorem set_text_memoization (parse_fn : List Char → TsNode) (db : AnalysisDb)
    (url : String) (X : List Char) (d1 : BladeDocument) (db1 : AnalysisDb)
    (h : parse_document parse_fn (set_source_file db url X) url = some (d1, db1)) :
    set_source_file db1 url X = db1 ∧
    parse_document parse_fn (set_source_file db1 url X) url = some (d1, db1) := by
  have hfile : alist_get (set_source_file db url X).files url = some X := by
    simp [set_source_file, alist_get_put]
  simp only [parse_document, hfile] at h
  have hkey : db1.files = (set_source_file db url X).files ∧
      alist_get db1.memo url = some (X, d1) := by
    cases hm : alist_get (set_source_file db url X).memo url with
    | none =>
      simp only [hm] at h
      injection h with h
      rw [Prod.mk.injEq] at h
      obtain ⟨hd, hdb⟩ := h
      subst hd
      subst hdb
      exact ⟨rfl, by simpa using
        alist_get_put (set_source_file db url X).memo url (X, BladeDocument.mk (parse_fn X))⟩
    | some p =>
      obtain ⟨inp, doc⟩ := p
      simp only [hm] at h
      by_cases hinp : inp = X
      · rw [if_pos hinp] at h
        injection h with h
        rw [Prod.mk.injEq] at h
        obtain ⟨hd, hdb⟩ := h
        subst hd
        subst hdb
        subst hinp
        exact ⟨rfl, hm⟩
      · rw [if_neg hinp] at h
        injection h with h
        rw [Prod.mk.injEq] at h
        obtain ⟨hd, hdb⟩ := h
        subst hd
        subst hdb
        exact ⟨rfl, by simpa using
          alist_get_put (set_source_file db url X).memo url (X, BladeDocument.mk (parse_fn X))⟩
  obtain ⟨hfiles1, hmemo1⟩ := hkey
  have hget1 : alist_get db1.files url = some X := by rw [hfiles1]; exact hfile
  have hset : set_source_file db1 url X = db1 := by
    have hps := alist_put_self db1.files url X hget1
    unfold set_source_file
    rw [hps]
  refine ⟨hset, ?_⟩
  rw [hset]
  simp [parse_document, hget1, hmemo1]

/-- Witness for C3: a concrete first set-and-parse, after which re-setting
the same bytes is a no-op and the parse is served from the memo. -/
theorem set_text_memoization_witness :
    set_source_file
        { files := [("u", ['a'])],
          memo := [("u", (['a'], ⟨TsNode.node "document" false false 0 0 0 0 0 0 []⟩))],
          parse_count := 1 } "u" ['a'] =
      { files := [("u", ['a'])],
        memo := [("u", (['a'], ⟨TsNode.node "document" false false 0 0 0 0 0 0 []⟩))],
        parse_count := 1 } ∧
    parse_document (fun _ => TsNode.node "document" false false 0 0 0 0 0 0 [])
        (set_source_file
          { files := [("u", ['a'])],
            memo := [("u", (['a'], ⟨TsNode.node "document" false false 0 0 0 0 0 0 []⟩))],
            parse_count := 1 } "u" ['a']) "u" =
      some (⟨TsNode.node "document" false false 0 0 0 0 0 0 []⟩,
        { files := [("u", ['a'])],
          memo := [("u", (['a'], ⟨TsNode.node "document" false false 0 0 0 0 0 0 []⟩))],
          parse_count := 1 }) :=
  set_text_memoization (fun _ => TsNode.node "document" false false 0 0 0 0 0 0 [])
    { files := [], memo := [], parse_count := 0 } "u" ['a']
    ⟨TsNode.node "document" false false 0 0 0 0 0 0 []⟩
    { files := [("u", ['a'])],
      memo := [("u", (['a'], ⟨TsNode.node "document" false false 0 0 0 0 0 0 []⟩))],
      parse_count := 1 } rfl

/-- An open document in the store of src/handler.rs (`DocumentData`). -/
structure DocumentData where
  contents : List Char

/-- The server state used by the did-change handler.  The `ServerState`
struct itself is declared outside the provided sources; its fields are
modelled from their uses in src/handler.rs: the open-document store, the
analysis database, and the negotiated encoding. -/
structure ServerState where
  documents : List (String × DocumentData)
  db : AnalysisDb
  encoding : PositionEncoding

/-- Embeds `handle_did_change` from src/handler.rs: when the identity is in
the open-document store, fold the changes into its text and push the result
into the analysis database; then — unconditionally — fetch the source file
(`Files::source_file`, whose panic on an unknown identity is modelled as
`none`), parse, extract diagnostics and publish them. -/
def handle_did_change (parse_fn : List Char → TsNode) (server : ServerState)
    (url : String) (content_changes : List ContentChange) :
    Option (ServerState × List Diagnostic) :=
  let server1 :=
    match alist_get server.documents url with
    | some document =>
      let new_contents :=
        apply_document_changes server.encoding document.contents content_changes
      { server with
          db := set_source_file server.db url new_contents,
          documents := alist_put server.documents url ⟨new_contents⟩ }
    | none => server
  match alist_get server1.db.files url with
  | none => none
  | some contents =>
    match parse_document parse_fn server1.db url with
    | none => none
    | some (doc, db2) =>
      some ({ server1 with db := db2 }, (query_errors doc contents (Except.ok ())).1)

/-- C8 (exhibiting the code bug): a change notification whose identity is
known neither to the open-document store nor to the analysis database is not
ignored — the handler reaches the `Files::source_file` panic ("Unable to
fetch source file ...; this is a bug"), modelled as `none`, instead of
leaving the state unchanged and reporting a no-op. -/
theorem handle_did_change_unknown_panics :
    handle_did_change (fun _ => TsNode.node "document" false false 0 0 0 0 0 0 [])
      { documents := [], db := { files := [], memo := [], parse_count := 0 },
        encoding := .utf8 }
      "file:///a.blade" [] = none := rfl

/-- The client capability list consumed by the negotiation: the
`position_encodings` of the `general` client capabilities, defaulting to the
empty list when either level is absent. -/
def client_position_encodings (general : Option (Option (List String))) : List String :=
  match general with
  | some ge => ge.getD []
  | none => []

/-- The encoding scan loop of `Server::negotiated_encoding` in
src/server.rs: the first entry equal to "utf-8" or "utf-32" decides;
otherwise fall back to UTF-16. -/
def negotiate_loop : List String → PositionEncoding
  | [] => .wide .utf16
  | enc :: rest =>
    if enc = "utf-8" then .utf8
    else if enc = "utf-32" then .wide .utf32
    else negotiate_loop rest

/-- Embeds `Server::negotiated_encoding` from src/server.rs. -/
def negotiated_encoding (general : Option (Option (List String))) : PositionEncoding :=
  negotiate_loop (client_position_encodings general)

/-- The negotiation as worded by claim C10, for comparison with the source
embedding: UTF-8 when the list contains "utf-8" at or before every "utf-32"
entry, otherwise UTF-32 when the list contains "utf-32", otherwise UTF-16. -/
def negotiated_encoding_claim (l : List String) : PositionEncoding :=
  if "utf-8" ∈ l ∧ l.findIdx (fun s => s == "utf-8") ≤ l.findIdx (fun s => s == "utf-32")
  then .utf8
  else if "utf-32" ∈ l then .wide .utf32
  else .wide .utf16

lemma negotiate_loop_eq_claim : ∀ l : List String,
    negotiate_loop l = negotiated_encoding_claim l := by
  intro l
  induction l with
  | nil => simp [negotiate_loop, negotiated_encoding_claim]
  | cons e rest ih =>
    by_cases h8 : e = "utf-8"
    · subst h8
      simp [negotiate_loop, negotiated_encoding_claim, List.findIdx_cons]
    · by_cases h32 : e = "utf-32"
      · subst h32
        simp [negotiate_loop, negotiated_encoding_claim, List.findIdx_cons, h8,
          Ne.symm h8]
      · rw [negotiate_loop, if_neg h8, if_neg h32, ih]
        have hb8 : (e == "utf-8") = false := by simpa using h8
        have hb32 : (e == "utf-32") = false := by simpa using h32
        simp [negotiated_encoding_claim, List.findIdx_cons, hb8, hb32,
          Ne.symm h8, Ne.symm h32]

/-- C10: the negotiated encoding is a pure function of the advertised list:
the source scan equals the claim ordering (UTF-8 when it appears at or
before every UTF-32 entry, else UTF-32 when present, else the UTF-16
fallback), and in particular no capabilities at all, or only "utf-16",
yield UTF-16. -/
theorem negotiated_encoding_matches_claim :
    (∀ general, negotiated_encoding general =
      negotiated_encoding_claim (client_position_encodings general)) ∧
    negotiated_encoding none = .wide .utf16 ∧
    negotiated_encoding (some (some ["utf-16"])) = .wide .utf16 :=
  ⟨fun _ => negotiate_loop_eq_claim _, rfl, rfl⟩

end Blase
